import Mathlib

/-!
Verification of the task/time tracker core (the zustand task store, the timer
state machine, the hierarchy indexer and the interval aggregator) against its
specification.

The shallow embedding follows the TypeScript source:
* timestamps (epoch milliseconds, JS numbers used integrally) are `Int`;
* optional fields are `Option`;
* JS truthiness on numbers and `undefined` is modelled explicitly:
  `!log.endTime` is true when `endTime` is `undefined` (here `none`) or `0`,
  and `x || d` on an optional number yields `d` when `x` is `undefined` or `0`;
* zustand `set` calls become pure functions `StoreState → StoreState`;
* `Date.now()` and `uuidv4()` are passed in as explicit parameters
  (`now : Int`, fresh id strings).
-/

namespace TaskTracker

inductive TaskStatus where
  | TODO
  | IN_PROGRESS
  | PAUSED
  | DONE
deriving DecidableEq, Repr

/-- Type `TimeLog` from src/types/index.ts: id, startTime, optional endTime. -/
structure TimeLog where
  id : String
  startTime : Int
  endTime : Option Int
deriving DecidableEq, Repr

/-- Type `WorkOutput` from src/types/index.ts. -/
structure WorkOutput where
  id : String
  name : String
  link : Option String
  completeness : Option String
deriving DecidableEq, Repr

/-- Type `Task` from src/types/index.ts, every field. -/
structure Task where
  id : String
  title : String
  aliasTitle : String
  description : String
  mainCategory : String
  subCategory : String
  estimatedStartDate : Option Int
  estimatedEndDate : Option Int
  actualStartDate : Option Int
  actualEndDate : Option Int
  assignee : String
  reporter : String
  status : TaskStatus
  timeLogs : List TimeLog
  totalTimeSpent : Int
  parentId : Option String
  outputs : List WorkOutput
  labels : List String
deriving DecidableEq, Repr

/-- Data part of the zustand store: tasks plus the two category
vocabularies. -/
structure StoreState where
  tasks : List Task
  mainCategories : List String
  subCategories : List String
deriving DecidableEq, Repr

/-- Initial store (`tasks: []` plus the seeded category defaults). -/
def initialState : StoreState :=
  { tasks := []
    mainCategories := ["Development", "Meeting", "General"]
    subCategories := ["Frontend", "Backend", "Research", "Planning", "Urgent"] }

/-- Model of JS `x || d` on an optional number: `d` when `x` is `undefined`
or `0` (both falsy), else the number itself. -/
def jsOrE (o : Option Int) (d : Int) : Int :=
  match o with
  | none => d
  | some e => if e = 0 then d else e

/-- Model of JS `!log.endTime`: true when `endTime` is `undefined` or `0`. -/
def isOpenJS (l : TimeLog) : Bool :=
  match l.endTime with
  | none => true
  | some e => e == 0

/-- Model of `timeLogs.findIndex((log) => !log.endTime)`, as an optional
index. -/
def findOpenIdx : List TimeLog → Option Nat
  | [] => none
  | l :: ls => if isOpenJS l then some 0 else (findOpenIdx ls).map (· + 1)

/-- Setting `endTime := now` on the log at position `i`, as in
`updatedLogs[i] = { ...updatedLogs[i], endTime: now }`. -/
def closeAt : List TimeLog → Nat → Int → List TimeLog
  | [], _, _ => []
  | l :: ls, 0, now => { l with endTime := some now } :: ls
  | l :: ls, n + 1, now => l :: closeAt ls n now

/-- Model of `logs.reduce((acc, log) => acc + ((log.endTime || d) - log.startTime), 0)`.
The JS reduce is a left fold of integer addition from `0`; the sum is written
recursively here, which computes the same total. -/
def sumLogs (d : Int) : List TimeLog → Int
  | [] => 0
  | l :: ls => (jsOrE l.endTime d - l.startTime) + sumLogs d ls

/-- Update that both timer actions perform once the open log is found:
close it at `now`, set `PAUSED`, recompute the total with `(endTime || now)`. -/
def pauseClose (now : Int) (i : Nat) (t : Task) : Task :=
  let u := closeAt t.timeLogs i now
  { t with status := .PAUSED, timeLogs := u, totalTimeSpent := sumLogs now u }

/-- Second branch of the map inside `startTimer`: append a fresh open log and
set `IN_PROGRESS` when the id matches, with
`actualStartDate: task.actualStartDate || now`. -/
def appendStart (taskId : String) (now : Int) (newId : String) (t : Task) : Task :=
  if t.id = taskId then
    { t with status := .IN_PROGRESS
             actualStartDate := some (jsOrE t.actualStartDate now)
             timeLogs := t.timeLogs ++ [⟨newId, now, none⟩] }
  else t

/-- Per-task update inside the `tasks.map` of `startTimer`.  The source first
checks `status === IN_PROGRESS` and returns the paused, closed task when an
open log is found (early return); otherwise it falls through to the
`task.id === taskId` check. -/
def startTimerTask (taskId : String) (now : Int) (newId : String) (t : Task) : Task :=
  match (if t.status = .IN_PROGRESS then findOpenIdx t.timeLogs else none) with
  | some i => pauseClose now i t
  | none => appendStart taskId now newId t

/-- Store action `startTimer(taskId)`. -/
def startTimer (taskId : String) (now : Int) (newId : String) (s : StoreState) : StoreState :=
  { s with tasks := s.tasks.map (startTimerTask taskId now newId) }

/-- Per-task update inside the `tasks.map` of `stopTimer`. -/
def stopTimerTask (taskId : String) (now : Int) (t : Task) : Task :=
  if t.id = taskId then
    match findOpenIdx t.timeLogs with
    | some i => pauseClose now i t
    | none => t
  else t

/-- Store action `stopTimer(taskId)`. -/
def stopTimer (taskId : String) (now : Int) (s : StoreState) : StoreState :=
  { s with tasks := s.tasks.map (stopTimerTask taskId now) }

/-- Per-task update inside `manualAddTimeLog`: append a closed log and
recompute the total with `(endTime || 0)`. -/
def manualAddTask (start end_ : Int) (newId : String) (t : Task) : Task :=
  let u := t.timeLogs ++ [⟨newId, start, some end_⟩]
  { t with timeLogs := u, totalTimeSpent := sumLogs 0 u }

/-- Store action `manualAddTimeLog(taskId, start, end)`. -/
def manualAddTimeLog (taskId : String) (start end_ : Int) (newId : String)
    (s : StoreState) : StoreState :=
  { s with tasks := s.tasks.map (fun t =>
      if t.id = taskId then manualAddTask start end_ newId t else t) }

/-- Model of `log.id === logId ? { ...log, startTime: start, endTime: end } : log`. -/
def updateLogEntry (logId : String) (start end_ : Int) (l : TimeLog) : TimeLog :=
  if l.id = logId then { l with startTime := start, endTime := some end_ } else l

/-- Per-task update inside `updateTimeLog`. -/
def updateTimeLogTask (logId : String) (start end_ : Int) (t : Task) : Task :=
  let u := t.timeLogs.map (updateLogEntry logId start end_)
  { t with timeLogs := u, totalTimeSpent := sumLogs 0 u }

/-- Store action `updateTimeLog(taskId, logId, start, end)`. -/
def updateTimeLog (taskId logId : String) (start end_ : Int) (s : StoreState) : StoreState :=
  { s with tasks := s.tasks.map (fun t =>
      if t.id = taskId then updateTimeLogTask logId start end_ t else t) }

/-- Per-task update inside `deleteTimeLog`. -/
def deleteTimeLogTask (logId : String) (t : Task) : Task :=
  let u := t.timeLogs.filter (fun l => l.id ≠ logId)
  { t with timeLogs := u, totalTimeSpent := sumLogs 0 u }

/-- Store action `deleteTimeLog(taskId, logId)`. -/
def deleteTimeLog (taskId logId : String) (s : StoreState) : StoreState :=
  { s with tasks := s.tasks.map (fun t =>
      if t.id = taskId then deleteTimeLogTask logId t else t) }

/-- Store action `deleteTask(id)`: keep the tasks with
`t.id !== id && t.parentId !== id`. -/
def deleteTask (id : String) (s : StoreState) : StoreState :=
  { s with tasks := s.tasks.filter (fun t => t.id ≠ id ∧ t.parentId ≠ some id) }

/-- Object `{ tasks, mainCategories, subCategories }` built by the full
export (`handleFullExport`).  Fields are optional because `importFullData`
guards each with `|| []`. -/
structure FullData where
  tasks : Option (List Task)
  mainCategories : Option (List String)
  subCategories : Option (List String)
deriving DecidableEq, Repr

/-- Data object of `handleFullExport` over the current store snapshot: every
field present. -/
def exportFull (s : StoreState) : FullData :=
  { tasks := some s.tasks
    mainCategories := some s.mainCategories
    subCategories := some s.subCategories }

/-- Store action `importFullData(data)`: wholesale replacement with `|| []`
fallbacks.  The `[]` is only chosen when the field is `undefined`: a present
array, even an empty one, is truthy in JS. -/
def importFullData (d : FullData) (_s : StoreState) : StoreState :=
  { tasks := d.tasks.getD []
    mainCategories := d.mainCategories.getD []
    subCategories := d.subCategories.getD [] }

/-! ### Interval aggregation (Stats.tsx and OutputReportPage.tsx) -/

/-- Value `effectiveStart = Math.max(log.startTime, start)` where `start` is
the window start. -/
def effStart (l : TimeLog) (ws : Int) : Int := max l.startTime ws

/-- Value `effectiveEnd = Math.min(log.endTime || now, end)` where `end` is
the window end. -/
def effEnd (l : TimeLog) (now we : Int) : Int := min (jsOrE l.endTime now) we

/-- Inclusion test of Stats.tsx:
`if (effectiveStart < end && effectiveEnd > start)`. -/
def statsIncluded (l : TimeLog) (now ws we : Int) : Bool :=
  decide (effStart l ws < we ∧ ws < effEnd l now we)

/-- Amount a log adds to its two category buckets in Stats.tsx:
`duration = effectiveEnd - effectiveStart` when included, nothing
otherwise. -/
def statsContrib (l : TimeLog) (now ws we : Int) : Int :=
  if statsIncluded l now ws we then effEnd l now we - effStart l ws else 0

/-- Per-log overlap test of `activeTasksInRange` in OutputReportPage.tsx:
`effectiveStart < effectiveEnd`. -/
def activeLog (l : TimeLog) (now ws we : Int) : Bool :=
  decide (effStart l ws < effEnd l now we)

/-- Task-level test of `activeTasksInRange`:
`task.timeLogs.some(log => ...)`. -/
def taskActiveInRange (t : Task) (now ws we : Int) : Bool :=
  t.timeLogs.any (fun l => activeLog l now ws we)

/-! ### Ancestor-chain depth (WeeklyReportPage.tsx, `getTaskDepth`) -/

/-- Model of `tasks.find(t => t.id === pid)`. -/
def findTask (tasks : List Task) (pid : String) : Option Task :=
  tasks.find? (fun t => t.id = pid)

/-- Fuel-indexed model of the `while` loop in `getTaskDepth`:

```
let depth = 1; let current = task;
while (current.parentId) {
  const parent = tasks.find(t => t.id === current.parentId);
  if (!parent) break;
  current = parent; depth++;
}
return depth;
```

Each fuel unit allows one loop iteration; `none` means the loop is still
running when the fuel runs out, so a result of `none` for every fuel value
means the source loop never terminates.  The JS truthiness test
`current.parentId` is false for `undefined` and for the empty string. -/
def getTaskDepthFuel (tasks : List Task) : Nat → Task → Nat → Option Nat
  | 0, _, _ => none
  | fuel + 1, current, depth =>
    match current.parentId with
    | none => some depth
    | some p =>
      if p = "" then some depth
      else
        match findTask tasks p with
        | none => some depth
        | some parent => getTaskDepthFuel tasks fuel parent (depth + 1)

/-! ### Hierarchy indexer (TaskList.tsx, `processedTasks`) -/

/-- Task annotated with a dotted WBS index string and a depth, as pushed by
`result.push({ ...child, indexDisplay: currentIndex, depth })`. -/
structure IndexedTask where
  task : Task
  indexDisplay : String
  depth : Nat
deriving DecidableEq, Repr

/-- Model of `baseFiltered.filter(t => t.parentId === parentId)` for a
concrete parent id string. -/
def childrenOf (filtered : List Task) (pid : String) : List Task :=
  filtered.filter (fun t => t.parentId = some pid)

/-- Model of the index string
`prefix ? p.concat(pre and number) : number`, that is
`pre ++ "." ++ (i+1)` when the pre string is nonempty, else `(i+1)`. -/
def mkIdx (pre : String) (i : Nat) : String :=
  if pre = "" then toString (i + 1) else pre ++ "." ++ toString (i + 1)

/-- Root test of the indexer:
`!t.parentId || !baseFiltered.find(p => p.id === t.parentId)`. -/
def rootPred (filtered : List Task) (t : Task) : Bool :=
  match t.parentId with
  | none => true
  | some p =>
    if p = "" then true else (filtered.find? (fun q => q.id = p)).isNone

/-- Model of `baseFiltered.filter` over `rootPred`. -/
def rootsOf (filtered : List Task) : List Task :=
  filtered.filter (rootPred filtered)

/-- Accumulator-style model of `buildHierarchy` from TaskList.tsx, faithful
to the `result.push` side effects: for each child in order, push it with its
dotted index at the current depth, recurse below it while `depth < 5`, then
continue with its siblings.  Arguments: current depth, remaining children of
the current parent, child counter `i`, index string of the parent, and the
accumulated result list. -/
def buildAcc (filtered : List Task) :
    Nat → List Task → Nat → String → List IndexedTask → List IndexedTask
  | _, [], _, _, acc => acc
  | depth, c :: cs, i, pre, acc =>
    let idx := mkIdx pre i
    let acc1 := acc ++ [⟨c, idx, depth⟩]
    let acc2 :=
      if _h : depth < 5 then
        buildAcc filtered (depth + 1) (childrenOf filtered c.id) 0 idx acc1
      else acc1
    buildAcc filtered depth cs (i + 1) pre acc2
termination_by depth l i pre acc => (5 - depth, l.length)

/-- Accumulator-style model of the root loop of `processedTasks`: push each
root with index `i+1` at depth 1, then build its subtree from depth 2. -/
def rootsAcc (filtered : List Task) :
    List Task → Nat → List IndexedTask → List IndexedTask
  | [], _, acc => acc
  | r :: rs, i, acc =>
    let idx := toString (i + 1)
    let acc1 := acc ++ [⟨r, idx, 1⟩]
    let acc2 := buildAcc filtered 2 (childrenOf filtered r.id) 0 idx acc1
    rootsAcc filtered rs (i + 1) acc2

/-- Model of the `processedTasks` computation of TaskList.tsx, applied to an
already filtered task list. -/
def processedTasks (filtered : List Task) : List IndexedTask :=
  rootsAcc filtered (rootsOf filtered) 0 []

/-- Compositional restatement of the indexing algorithm as the specification
words it: each child contributes its own entry followed by its subtree
(traversed only while the depth is below 5), then the entries of its later
siblings. Compared against the accumulator-style `buildAcc` from the
source. -/
def specChildren (filtered : List Task) :
    Nat → List Task → Nat → String → List IndexedTask
  | _, [], _, _ => []
  | depth, c :: cs, i, pre =>
    (⟨c, mkIdx pre i, depth⟩ ::
      (if _h : depth < 5 then
        specChildren filtered (depth + 1) (childrenOf filtered c.id) 0 (mkIdx pre i)
      else []))
    ++ specChildren filtered depth cs (i + 1) pre
termination_by depth l i pre => (5 - depth, l.length)

/-- Compositional restatement of the root loop: roots are numbered
`1, 2, 3, ...` in relative order, each followed by its subtree. -/
def specIndexRoots (filtered : List Task) : List Task → Nat → List IndexedTask
  | [], _ => []
  | r :: rs, i =>
    (⟨r, toString (i + 1), 1⟩ ::
      specChildren filtered 2 (childrenOf filtered r.id) 0 (toString (i + 1)))
    ++ specIndexRoots filtered rs (i + 1)

/-- Compositional restatement of the whole indexer, for comparison with
`processedTasks`. -/
def specIndex (filtered : List Task) : List IndexedTask :=
  specIndexRoots filtered (rootsOf filtered) 0

/-! ### Invariant vocabulary -/

/-- Number of logs with no end instant (open in the sense of the claims). -/
def logsOpenCount (logs : List TimeLog) : Nat :=
  logs.countP (fun l => decide (l.endTime = none))

/-- Number of open logs of one task. -/
def openCount (t : Task) : Nat := logsOpenCount t.timeLogs

/-- No log carries the end instant `0`;  `Date.now()` never returns `0`, and
with this the JS falsiness test `!log.endTime` coincides with
`endTime = none`. -/
def noZeroEnd (logs : List TimeLog) : Prop := ∀ l ∈ logs, l.endTime ≠ some 0

/-- Total claimed by the specification: the sum of `end - start` over the
logs with an end set, open logs contributing `0`. -/
def claimTotal : List TimeLog → Int
  | [] => 0
  | l :: ls =>
    (match l.endTime with
     | some e => e - l.startTime
     | none => 0) + claimTotal ls

/-- Per-task well-formedness carried through the operation sequences:
no zero end instants, at most one open log, an open log only on a running
task, and on a task with no open log the cached total equals the
specification total. -/
def InvTask (t : Task) : Prop :=
  noZeroEnd t.timeLogs ∧ openCount t ≤ 1 ∧
    (openCount t = 1 → t.status = .IN_PROGRESS) ∧
    (openCount t = 0 → t.totalTimeSpent = claimTotal t.timeLogs)

/-- Store-wide per-task well-formedness. -/
def InvB (s : StoreState) : Prop := ∀ t ∈ s.tasks, InvTask t

/-- Number of tasks with status `IN_PROGRESS`. -/
def inpCount (s : StoreState) : Nat :=
  s.tasks.countP (fun t => decide (t.status = .IN_PROGRESS))

/-- Strong store invariant for the timer state machine: per-task
well-formedness, distinct task ids, at most one running task, and every
running task owns exactly one open log. -/
def InvA (s : StoreState) : Prop :=
  InvB s ∧ (s.tasks.map Task.id).Nodup ∧ inpCount s ≤ 1 ∧
    ∀ t ∈ s.tasks, t.status = .IN_PROGRESS → openCount t = 1

/-- Number of open logs across the whole store. -/
def openTotal (s : StoreState) : Nat := (s.tasks.map openCount).sum

/-- Property that every log with an end instant has it at or after its start
instant, written decidably per log. -/
def logEndOk (l : TimeLog) : Bool :=
  match l.endTime with
  | none => true
  | some e => decide (l.startTime ≤ e)

/-- Store-wide version of `logEndOk`. -/
def endsGeStart (s : StoreState) : Prop :=
  ∀ t ∈ s.tasks, ∀ l ∈ t.timeLogs, logEndOk l = true

instance (t : Task) : Decidable (InvTask t) := by
  unfold InvTask noZeroEnd
  infer_instance

instance (s : StoreState) : Decidable (InvB s) := by
  unfold InvB
  infer_instance

instance (s : StoreState) : Decidable (InvA s) := by
  unfold InvA
  infer_instance

instance (s : StoreState) : Decidable (endsGeStart s) := by
  unfold endsGeStart
  infer_instance

/-! ### Step relations -/

/-- One `startTimer` or `stopTimer` call.  `Date.now()` is modelled as an
arbitrary positive integer (epoch milliseconds are never `0`), the fresh
uuid as an arbitrary string. -/
inductive TimerStep : StoreState → StoreState → Prop where
  | start (s : StoreState) (taskId : String) (now : Int) (newId : String)
      (hnow : 0 < now) : TimerStep s (startTimer taskId now newId s)
  | stop (s : StoreState) (taskId : String) (now : Int)
      (hnow : 0 < now) : TimerStep s (stopTimer taskId now s)

/-- Reflexive-transitive closure of `TimerStep`. -/
inductive TimerReach : StoreState → StoreState → Prop where
  | refl (s : StoreState) : TimerReach s s
  | step {s t u : StoreState} : TimerReach s t → TimerStep t u → TimerReach s u

/-- One of the five timer and time-log operations.  Timer instants and
caller-supplied end instants are positive (epoch milliseconds). -/
inductive LogStep : StoreState → StoreState → Prop where
  | start (s : StoreState) (taskId : String) (now : Int) (newId : String)
      (hnow : 0 < now) : LogStep s (startTimer taskId now newId s)
  | stop (s : StoreState) (taskId : String) (now : Int)
      (hnow : 0 < now) : LogStep s (stopTimer taskId now s)
  | manualAdd (s : StoreState) (taskId : String) (start end_ : Int) (newId : String)
      (hend : 0 < end_) : LogStep s (manualAddTimeLog taskId start end_ newId s)
  | update (s : StoreState) (taskId logId : String) (start end_ : Int)
      (hend : 0 < end_) : LogStep s (updateTimeLog taskId logId start end_ s)
  | deleteLog (s : StoreState) (taskId logId : String) :
      LogStep s (deleteTimeLog taskId logId s)

/-- Reflexive-transitive closure of `LogStep`. -/
inductive LogReach : StoreState → StoreState → Prop where
  | refl (s : StoreState) : LogReach s s
  | step {s t u : StoreState} : LogReach s t → LogStep t u → LogReach s u

/-! ### Concrete fixtures for counterexamples and witnesses -/

/-- Task fixture with the given id, status, logs, cached total and parent;
the remaining fields are inert defaults. -/
def mkTask (id : String) (status : TaskStatus) (timeLogs : List TimeLog)
    (totalTimeSpent : Int) (parentId : Option String) : Task :=
  { id := id, title := id, aliasTitle := "", description := ""
    mainCategory := "", subCategory := ""
    estimatedStartDate := none, estimatedEndDate := none
    actualStartDate := none, actualEndDate := none
    assignee := "", reporter := ""
    status := status, timeLogs := timeLogs, totalTimeSpent := totalTimeSpent
    parentId := parentId, outputs := [], labels := [] }

/-- Two tasks whose parent ids form a cycle. -/
def cycTaskA : Task := mkTask "A" .TODO [] 0 (some "B")

/-- Second half of the parent cycle. -/
def cycTaskB : Task := mkTask "B" .TODO [] 0 (some "A")

/-- Task list containing the parent cycle `A → B → A`. -/
def cycTasks : List Task := [cycTaskA, cycTaskB]

/-- Store with a single fresh TODO task, exactly as `addTask` creates it. -/
def oneTaskState : StoreState :=
  { tasks := [mkTask "A" .TODO [] 0 none], mainCategories := [], subCategories := [] }

/-- Store with one running task owning one open log started at instant 5. -/
def runningState : StoreState :=
  { tasks := [mkTask "A" .IN_PROGRESS [⟨"l1", 5, none⟩] 0 none]
    mainCategories := [], subCategories := [] }

end TaskTracker

namespace TaskTracker

/-! ### Basic lemmas about logs -/

theorem logsOpenCount_cons (l : TimeLog) (ls : List TimeLog) :
    logsOpenCount (l :: ls) =
      logsOpenCount ls + (if l.endTime = none then 1 else 0) := by
  simp [logsOpenCount, List.countP_cons]

theorem logsOpenCount_append (ls : List TimeLog) (l : TimeLog) :
    logsOpenCount (ls ++ [l]) =
      logsOpenCount ls + (if l.endTime = none then 1 else 0) := by
  simp [logsOpenCount, List.countP_append, List.countP_cons]

theorem isOpenJS_eq_true (l : TimeLog) (hz : l.endTime ≠ some 0) :
    isOpenJS l = true ↔ l.endTime = none := by
  unfold isOpenJS
  cases h : l.endTime with
  | none => simp
  | some e =>
    simp only [h] at hz ⊢
    constructor
    · intro he
      exact absurd (by simpa using he : e = 0) (fun h0 => hz (by simp [h0]))
    · intro he
      cases he

theorem findOpenIdx_none_count (logs : List TimeLog) (hz : noZeroEnd logs)
    (h : findOpenIdx logs = none) : logsOpenCount logs = 0 := by
  induction logs with
  | nil => rfl
  | cons l ls ih =>
    simp only [findOpenIdx] at h
    by_cases ho : isOpenJS l = true
    · rw [if_pos ho] at h
      cases h
    · rw [if_neg ho] at h
      have hzl : l.endTime ≠ some 0 := hz l (by simp)
      have hne : l.endTime ≠ none := fun hn => ho ((isOpenJS_eq_true l hzl).mpr hn)
      cases hf : findOpenIdx ls with
      | some j => rw [hf] at h; cases h
      | none =>
        rw [logsOpenCount_cons, ih (fun x hx => hz x (by simp [hx])) hf]
        simp [hne]

theorem closeAt_found (logs : List TimeLog) (hz : noZeroEnd logs) (now : Int)
    (hnow : now ≠ 0) :
    ∀ i, findOpenIdx logs = some i →
      (closeAt logs i now).length = logs.length ∧
      noZeroEnd (closeAt logs i now) ∧
      logsOpenCount (closeAt logs i now) + 1 = logsOpenCount logs := by
  induction logs with
  | nil => intro i h; cases h
  | cons l ls ih =>
    intro i h
    simp only [findOpenIdx] at h
    by_cases ho : isOpenJS l = true
    · rw [if_pos ho] at h
      have hi : (0 : Nat) = i := Option.some.inj h
      subst hi
      have hzl : l.endTime ≠ some 0 := hz l (by simp)
      have hopen : l.endTime = none := (isOpenJS_eq_true l hzl).mp ho
      refine ⟨by simp [closeAt], ?_, ?_⟩
      · intro x hx
        simp only [closeAt, List.mem_cons] at hx
        rcases hx with rfl | hx
        · simp only [ne_eq, Option.some.injEq]
          intro h0; exact hnow h0
        · exact hz x (by simp [hx])
      · simp [closeAt, logsOpenCount_cons, hopen]
    · rw [if_neg ho] at h
      have hzl : l.endTime ≠ some 0 := hz l (by simp)
      have hne : l.endTime ≠ none := fun hn => ho ((isOpenJS_eq_true l hzl).mpr hn)
      cases hf : findOpenIdx ls with
      | none => rw [hf] at h; cases h
      | some j =>
        rw [hf] at h
        have hi : j + 1 = i := Option.some.inj h
        subst hi
        obtain ⟨h1, h2, h3⟩ := ih (fun x hx => hz x (by simp [hx])) j hf
        refine ⟨by simp [closeAt, h1], ?_, ?_⟩
        · intro x hx
          simp only [closeAt, List.mem_cons] at hx
          rcases hx with rfl | hx
          · exact hzl
          · exact h2 x hx
        · rw [show closeAt (l :: ls) (j + 1) now = l :: closeAt ls j now from rfl,
            logsOpenCount_cons, logsOpenCount_cons]
          omega

theorem sumLogs_eq_claimTotal (logs : List TimeLog) (hz : noZeroEnd logs)
    (h0 : logsOpenCount logs = 0) (d : Int) : sumLogs d logs = claimTotal logs := by
  induction logs with
  | nil => rfl
  | cons l ls ih =>
    rw [logsOpenCount_cons] at h0
    cases he : l.endTime with
    | none => rw [he] at h0; simp at h0
    | some e =>
      have he0 : e ≠ 0 := fun h => hz l (by simp) (by rw [he, h])
      have hls : logsOpenCount ls = 0 := by
        rw [he] at h0; simpa using h0
      simp only [sumLogs, claimTotal, he, jsOrE]
      rw [if_neg he0, ih (fun x hx => hz x (by simp [hx])) hls]

theorem findOpenIdx_some_of_count (logs : List TimeLog) (hz : noZeroEnd logs)
    (h : logsOpenCount logs ≠ 0) : ∃ i, findOpenIdx logs = some i := by
  cases hf : findOpenIdx logs with
  | none => exact absurd (findOpenIdx_none_count logs hz hf) h
  | some i => exact ⟨i, rfl⟩

end TaskTracker

namespace TaskTracker

/-! ### Per-task lemmas for the store operations -/

theorem openCount_append_open (logs : List TimeLog) (nid : String) (now : Int) :
    logsOpenCount (logs ++ [⟨nid, now, none⟩]) = logsOpenCount logs + 1 := by
  rw [logsOpenCount_append]
  simp

theorem openCount_append_closed (logs : List TimeLog) (nid : String) (a e : Int) :
    logsOpenCount (logs ++ [⟨nid, a, some e⟩]) = logsOpenCount logs := by
  rw [logsOpenCount_append]
  simp

theorem pauseClose_invTask (t : Task) (now : Int) (hnow : 0 < now) (i : Nat)
    (hz : noZeroEnd t.timeLogs) (hle : openCount t ≤ 1)
    (hfind : findOpenIdx t.timeLogs = some i) :
    InvTask (pauseClose now i t) ∧ (pauseClose now i t).status = .PAUSED ∧
      openCount (pauseClose now i t) = 0 ∧
      (pauseClose now i t).id = t.id ∧
      (pauseClose now i t).timeLogs.length = t.timeLogs.length := by
  obtain ⟨h1, h2, h3⟩ := closeAt_found t.timeLogs hz now (by omega) i hfind
  have hle2 : logsOpenCount t.timeLogs ≤ 1 := hle
  have hopen : logsOpenCount (closeAt t.timeLogs i now) = 0 := by omega
  have hopen2 : openCount (pauseClose now i t) = 0 := hopen
  refine ⟨⟨h2, ?_, ?_, ?_⟩, rfl, hopen2, rfl, h1⟩
  · show logsOpenCount (closeAt t.timeLogs i now) ≤ 1
    omega
  · intro h
    rw [hopen2] at h
    cases h
  · intro _
    show sumLogs now (closeAt t.timeLogs i now) = claimTotal (closeAt t.timeLogs i now)
    exact sumLogs_eq_claimTotal _ h2 hopen now

theorem startTimerTask_cases (tid : String) (now : Int) (nid : String) (t : Task) :
    (∃ i, t.status = .IN_PROGRESS ∧ findOpenIdx t.timeLogs = some i ∧
        startTimerTask tid now nid t = pauseClose now i t) ∨
    ((t.status = .IN_PROGRESS → findOpenIdx t.timeLogs = none) ∧
        startTimerTask tid now nid t = appendStart tid now nid t) := by
  unfold startTimerTask
  by_cases hst : t.status = .IN_PROGRESS
  · rw [if_pos hst]
    cases hf : findOpenIdx t.timeLogs with
    | some i => exact Or.inl ⟨i, hst, rfl, rfl⟩
    | none => exact Or.inr ⟨fun _ => rfl, rfl⟩
  · rw [if_neg hst]
    exact Or.inr ⟨fun h => absurd h hst, rfl⟩

theorem appendStart_cases (tid : String) (now : Int) (nid : String) (t : Task) :
    (t.id = tid ∧ appendStart tid now nid t =
        { t with status := .IN_PROGRESS
                 actualStartDate := some (jsOrE t.actualStartDate now)
                 timeLogs := t.timeLogs ++ [⟨nid, now, none⟩] }) ∨
    (t.id ≠ tid ∧ appendStart tid now nid t = t) := by
  unfold appendStart
  by_cases hid : t.id = tid
  · rw [if_pos hid]
    exact Or.inl ⟨hid, rfl⟩
  · rw [if_neg hid]
    exact Or.inr ⟨hid, rfl⟩

theorem startTimerTask_id (tid : String) (now : Int) (nid : String) (t : Task) :
    (startTimerTask tid now nid t).id = t.id := by
  rcases startTimerTask_cases tid now nid t with ⟨i, _, _, heq⟩ | ⟨_, heq⟩
  · rw [heq]
    rfl
  · rcases appendStart_cases tid now nid t with ⟨_, heq2⟩ | ⟨_, heq2⟩ <;>
      rw [heq, heq2]

theorem stopTimerTask_cases (tid : String) (now : Int) (t : Task) :
    (stopTimerTask tid now t = t) ∨
    (∃ i, t.id = tid ∧ findOpenIdx t.timeLogs = some i ∧
        stopTimerTask tid now t = pauseClose now i t) := by
  unfold stopTimerTask
  by_cases hid : t.id = tid
  · rw [if_pos hid]
    cases hf : findOpenIdx t.timeLogs with
    | some i => exact Or.inr ⟨i, hid, rfl, rfl⟩
    | none => exact Or.inl rfl
  · rw [if_neg hid]
    exact Or.inl rfl

theorem stopTimerTask_id (tid : String) (now : Int) (t : Task) :
    (stopTimerTask tid now t).id = t.id := by
  rcases stopTimerTask_cases tid now t with heq | ⟨i, _, _, heq⟩ <;> rw [heq]
  rfl

theorem appendStart_invTask (tid : String) (now : Int) (nid : String) (t : Task)
    (hz : noZeroEnd t.timeLogs)
    (hone : openCount t = 1 → t.status = .IN_PROGRESS)
    (htot : openCount t = 0 → t.totalTimeSpent = claimTotal t.timeLogs)
    (hopen0 : openCount t = 0) : InvTask (appendStart tid now nid t) := by
  rcases appendStart_cases tid now nid t with ⟨hid, heq⟩ | ⟨hid, heq⟩
  · rw [heq]
    have h0 : logsOpenCount t.timeLogs = 0 := hopen0
    have hcnt : logsOpenCount (t.timeLogs ++ [⟨nid, now, none⟩]) = 1 := by
      rw [openCount_append_open]
      omega
    have hz2 : noZeroEnd (t.timeLogs ++ [⟨nid, now, none⟩]) := by
      intro x hx
      rcases List.mem_append.mp hx with hx | hx
      · exact hz x hx
      · rw [List.mem_singleton] at hx
        subst hx
        simp
    refine ⟨hz2, ?_, fun _ => rfl, ?_⟩
    · show logsOpenCount (t.timeLogs ++ [⟨nid, now, none⟩]) ≤ 1
      omega
    · intro h
      have h2 : logsOpenCount (t.timeLogs ++ [⟨nid, now, none⟩]) = 0 := h
      omega
  · rw [heq]
    have h0 : openCount t = 0 := hopen0
    exact ⟨hz, by omega, hone, htot⟩

theorem startTimerTask_open0 (tid : String) (now : Int) (nid : String) (t : Task)
    (hz : noZeroEnd t.timeLogs) (hle : openCount t ≤ 1)
    (hone : openCount t = 1 → t.status = .IN_PROGRESS)
    (hnf : t.status = .IN_PROGRESS → findOpenIdx t.timeLogs = none) :
    openCount t = 0 := by
  by_cases hst : t.status = .IN_PROGRESS
  · exact findOpenIdx_none_count _ hz (hnf hst)
  · have h1 : openCount t ≠ 1 := fun h => hst (hone h)
    omega

theorem invTask_startTimerTask (tid : String) (now : Int) (nid : String) (t : Task)
    (hI : InvTask t) (hnow : 0 < now) : InvTask (startTimerTask tid now nid t) := by
  obtain ⟨hz, hle, hone, htot⟩ := hI
  rcases startTimerTask_cases tid now nid t with ⟨i, hst, hf, heq⟩ | ⟨hnf, heq⟩
  · rw [heq]
    exact (pauseClose_invTask t now hnow i hz hle hf).1
  · rw [heq]
    exact appendStart_invTask tid now nid t hz hone htot
      (startTimerTask_open0 tid now nid t hz hle hone hnf)

theorem startTimerTask_run (tid : String) (now : Int) (nid : String) (t : Task)
    (hI : InvTask t) (hrun : t.status = .IN_PROGRESS → openCount t = 1)
    (hnow : 0 < now) :
    ((startTimerTask tid now nid t).status = .IN_PROGRESS →
      (t.id = tid ∧ openCount (startTimerTask tid now nid t) = 1)) ∧
    openCount (startTimerTask tid now nid t) ≤ (if t.id = tid then 1 else 0) := by
  obtain ⟨hz, hle, hone, htot⟩ := hI
  rcases startTimerTask_cases tid now nid t with ⟨i, hst, hf, heq⟩ | ⟨hnf, heq⟩
  · rw [heq]
    obtain ⟨_, hps, hop, _, _⟩ := pauseClose_invTask t now hnow i hz hle hf
    constructor
    · intro h
      rw [hps] at h
      exact absurd h (by decide)
    · rw [hop]
      by_cases hid : t.id = tid <;> simp [hid]
  · have hopen0 : openCount t = 0 :=
      startTimerTask_open0 tid now nid t hz hle hone hnf
    have h0 : logsOpenCount t.timeLogs = 0 := hopen0
    rw [heq]
    rcases appendStart_cases tid now nid t with ⟨hid, heq2⟩ | ⟨hid, heq2⟩
    · rw [heq2]
      have hcnt : logsOpenCount (t.timeLogs ++ [⟨nid, now, none⟩]) = 1 := by
        rw [openCount_append_open]
        omega
      refine ⟨fun _ => ⟨hid, hcnt⟩, ?_⟩
      rw [if_pos hid]
      show logsOpenCount (t.timeLogs ++ [⟨nid, now, none⟩]) ≤ 1
      omega
    · rw [heq2]
      constructor
      · intro hst
        have h1 : openCount t = 1 := hrun hst
        omega
      · rw [if_neg hid]
        exact Nat.le_of_eq hopen0

theorem invTask_stopTimerTask (tid : String) (now : Int) (t : Task)
    (hI : InvTask t) (hnow : 0 < now) : InvTask (stopTimerTask tid now t) := by
  obtain ⟨hz, hle, hone, htot⟩ := hI
  rcases stopTimerTask_cases tid now t with heq | ⟨i, hid, hf, heq⟩
  · rw [heq]
    exact ⟨hz, hle, hone, htot⟩
  · rw [heq]
    exact (pauseClose_invTask t now hnow i hz hle hf).1

theorem stopTimerTask_run (tid : String) (now : Int) (t : Task)
    (hI : InvTask t) (hnow : 0 < now) :
    ((stopTimerTask tid now t).status = .IN_PROGRESS →
        t.status = .IN_PROGRESS ∧ stopTimerTask tid now t = t) ∧
    openCount (stopTimerTask tid now t) ≤ openCount t := by
  obtain ⟨hz, hle, hone, htot⟩ := hI
  rcases stopTimerTask_cases tid now t with heq | ⟨i, hid, hf, heq⟩
  · rw [heq]
    exact ⟨fun h => ⟨h, rfl⟩, Nat.le_refl _⟩
  · rw [heq]
    obtain ⟨_, hps, hop, _, _⟩ := pauseClose_invTask t now hnow i hz hle hf
    constructor
    · intro h
      rw [hps] at h
      exact absurd h (by decide)
    · rw [hop]
      exact Nat.zero_le _

theorem invTask_manualAddTask (start end_ : Int) (nid : String) (t : Task)
    (hI : InvTask t) (hend : 0 < end_) : InvTask (manualAddTask start end_ nid t) := by
  obtain ⟨hz, hle, hone, htot⟩ := hI
  have hle2 : logsOpenCount t.timeLogs ≤ 1 := hle
  have hcnt : logsOpenCount (t.timeLogs ++ [⟨nid, start, some end_⟩]) =
      logsOpenCount t.timeLogs := openCount_append_closed _ _ _ _
  have hz2 : noZeroEnd (t.timeLogs ++ [⟨nid, start, some end_⟩]) := by
    intro x hx
    rcases List.mem_append.mp hx with hx | hx
    · exact hz x hx
    · rw [List.mem_singleton] at hx
      subst hx
      intro hc
      exact absurd (Option.some.inj hc) (by omega)
  refine ⟨hz2, ?_, ?_, ?_⟩
  · show logsOpenCount (t.timeLogs ++ [⟨nid, start, some end_⟩]) ≤ 1
    omega
  · intro h
    have h2 : logsOpenCount (t.timeLogs ++ [⟨nid, start, some end_⟩]) = 1 := h
    have h3 : logsOpenCount t.timeLogs = 1 := by omega
    exact hone h3
  · intro h
    have h2 : logsOpenCount (t.timeLogs ++ [⟨nid, start, some end_⟩]) = 0 := h
    exact sumLogs_eq_claimTotal _ hz2 h2 0

theorem countP_map_le {α : Type} (f : α → α) (p q : α → Bool) (l : List α)
    (h : ∀ a ∈ l, p (f a) = true → q a = true) :
    (l.map f).countP p ≤ l.countP q := by
  induction l with
  | nil => simp
  | cons a as ih =>
    have ih2 := ih (fun x hx => h x (by simp [hx]))
    simp only [List.map_cons, List.countP_cons]
    by_cases hp : p (f a) = true
    · rw [if_pos hp, if_pos (h a (by simp) hp)]
      omega
    · rw [if_neg hp]
      by_cases hq : q a = true
      · rw [if_pos hq]
        omega
      · rw [if_neg hq]
        omega

theorem invTask_updateTimeLogTask (lid : String) (start end_ : Int) (t : Task)
    (hI : InvTask t) (hend : 0 < end_) :
    InvTask (updateTimeLogTask lid start end_ t) := by
  obtain ⟨hz, hle, hone, htot⟩ := hI
  have hle2 : logsOpenCount t.timeLogs ≤ 1 := hle
  have hz2 : noZeroEnd (t.timeLogs.map (updateLogEntry lid start end_)) := by
    intro x hx
    rw [List.mem_map] at hx
    obtain ⟨y, hy, rfl⟩ := hx
    unfold updateLogEntry
    by_cases hyl : y.id = lid
    · rw [if_pos hyl]
      intro hc
      exact absurd (Option.some.inj hc) (by omega)
    · rw [if_neg hyl]
      exact hz y hy
  have hmono : logsOpenCount (t.timeLogs.map (updateLogEntry lid start end_)) ≤
      logsOpenCount t.timeLogs := by
    apply countP_map_le
    intro a _ hp
    unfold updateLogEntry at hp
    by_cases hal : a.id = lid
    · rw [if_pos hal] at hp
      simp at hp
    · rwa [if_neg hal] at hp
  refine ⟨hz2, ?_, ?_, ?_⟩
  · show logsOpenCount (t.timeLogs.map (updateLogEntry lid start end_)) ≤ 1
    omega
  · intro h
    have h2 : logsOpenCount (t.timeLogs.map (updateLogEntry lid start end_)) = 1 := h
    have h3 : logsOpenCount t.timeLogs = 1 := by omega
    exact hone h3
  · intro h
    have h2 : logsOpenCount (t.timeLogs.map (updateLogEntry lid start end_)) = 0 := h
    exact sumLogs_eq_claimTotal _ hz2 h2 0

theorem invTask_deleteTimeLogTask (lid : String) (t : Task)
    (hI : InvTask t) : InvTask (deleteTimeLogTask lid t) := by
  obtain ⟨hz, hle, hone, htot⟩ := hI
  have hle2 : logsOpenCount t.timeLogs ≤ 1 := hle
  have hsub : (t.timeLogs.filter (fun l => l.id ≠ lid)).Sublist t.timeLogs :=
    List.filter_sublist t.timeLogs
  have hz2 : noZeroEnd (t.timeLogs.filter (fun l => l.id ≠ lid)) := by
    intro x hx
    exact hz x (List.mem_of_mem_filter hx)
  have hmono : logsOpenCount (t.timeLogs.filter (fun l => l.id ≠ lid)) ≤
      logsOpenCount t.timeLogs := hsub.countP_le _
  refine ⟨hz2, ?_, ?_, ?_⟩
  · show logsOpenCount (t.timeLogs.filter (fun l => l.id ≠ lid)) ≤ 1
    omega
  · intro h
    have h2 : logsOpenCount (t.timeLogs.filter (fun l => l.id ≠ lid)) = 1 := h
    have h3 : logsOpenCount t.timeLogs = 1 := by omega
    exact hone h3
  · intro h
    have h2 : logsOpenCount (t.timeLogs.filter (fun l => l.id ≠ lid)) = 0 := h
    exact sumLogs_eq_claimTotal _ hz2 h2 0

end TaskTracker

namespace TaskTracker

/-! ### Store-level invariant preservation -/

theorem countP_le_one_of_nodup (l : List Task) (hn : (l.map Task.id).Nodup)
    (tid : String) : l.countP (fun t => decide (t.id = tid)) ≤ 1 := by
  induction l with
  | nil => simp
  | cons a as ih =>
    rw [List.map_cons, List.nodup_cons] at hn
    rw [List.countP_cons]
    by_cases ha : a.id = tid
    · have hz : as.countP (fun t => decide (t.id = tid)) = 0 := by
        rw [List.countP_eq_zero]
        intro x hx
        simp only [decide_eq_true_eq]
        intro hxe
        have hax : a.id = x.id := by rw [ha, hxe]
        exact hn.1 (hax ▸ List.mem_map_of_mem Task.id hx)
      rw [hz]
      simp [ha]
    · rw [if_neg (by simpa using ha)]
      have := ih hn.2
      omega

theorem sum_map_le_countP {α : Type} (g : α → Nat) (p : α → Bool) (l : List α)
    (h : ∀ a ∈ l, g a ≤ if p a then 1 else 0) :
    (l.map g).sum ≤ l.countP p := by
  induction l with
  | nil => simp
  | cons a as ih =>
    rw [List.map_cons, List.sum_cons, List.countP_cons]
    have h1 := h a (by simp)
    have h2 := ih (fun x hx => h x (by simp [hx]))
    by_cases hp : p a = true
    · rw [if_pos hp] at h1 ⊢
      omega
    · rw [if_neg hp] at h1 ⊢
      omega

theorem invB_startTimer (s : StoreState) (tid : String) (now : Int) (nid : String)
    (hnow : 0 < now) (hB : InvB s) : InvB (startTimer tid now nid s) := by
  intro t' ht'
  simp only [startTimer, List.mem_map] at ht'
  obtain ⟨t, ht, rfl⟩ := ht'
  exact invTask_startTimerTask tid now nid t (hB t ht) hnow

theorem invB_stopTimer (s : StoreState) (tid : String) (now : Int)
    (hnow : 0 < now) (hB : InvB s) : InvB (stopTimer tid now s) := by
  intro t' ht'
  simp only [stopTimer, List.mem_map] at ht'
  obtain ⟨t, ht, rfl⟩ := ht'
  exact invTask_stopTimerTask tid now t (hB t ht) hnow

theorem invB_manualAdd (s : StoreState) (tid : String) (start end_ : Int)
    (nid : String) (hend : 0 < end_) (hB : InvB s) :
    InvB (manualAddTimeLog tid start end_ nid s) := by
  intro t' ht'
  simp only [manualAddTimeLog, List.mem_map] at ht'
  obtain ⟨t, ht, rfl⟩ := ht'
  by_cases hid : t.id = tid
  · rw [if_pos hid]
    exact invTask_manualAddTask start end_ nid t (hB t ht) hend
  · rw [if_neg hid]
    exact hB t ht

theorem invB_update (s : StoreState) (tid lid : String) (start end_ : Int)
    (hend : 0 < end_) (hB : InvB s) : InvB (updateTimeLog tid lid start end_ s) := by
  intro t' ht'
  simp only [updateTimeLog, List.mem_map] at ht'
  obtain ⟨t, ht, rfl⟩ := ht'
  by_cases hid : t.id = tid
  · rw [if_pos hid]
    exact invTask_updateTimeLogTask lid start end_ t (hB t ht) hend
  · rw [if_neg hid]
    exact hB t ht

theorem invB_deleteLog (s : StoreState) (tid lid : String) (hB : InvB s) :
    InvB (deleteTimeLog tid lid s) := by
  intro t' ht'
  simp only [deleteTimeLog, List.mem_map] at ht'
  obtain ⟨t, ht, rfl⟩ := ht'
  by_cases hid : t.id = tid
  · rw [if_pos hid]
    exact invTask_deleteTimeLogTask lid t (hB t ht)
  · rw [if_neg hid]
    exact hB t ht

theorem invB_logStep {s s' : StoreState} (hstep : LogStep s s') (hB : InvB s) :
    InvB s' := by
  cases hstep with
  | start tid now nid hnow => exact invB_startTimer s tid now nid hnow hB
  | stop tid now hnow => exact invB_stopTimer s tid now hnow hB
  | manualAdd tid start end_ nid hend => exact invB_manualAdd s tid start end_ nid hend hB
  | update tid lid start end_ hend => exact invB_update s tid lid start end_ hend hB
  | deleteLog tid lid => exact invB_deleteLog s tid lid hB

theorem invB_logReach {s s' : StoreState} (h0 : InvB s) (hr : LogReach s s') :
    InvB s' := by
  induction hr with
  | refl => exact h0
  | step hr hstep ih => exact invB_logStep hstep ih

theorem invA_startTimer (s : StoreState) (tid : String) (now : Int) (nid : String)
    (hnow : 0 < now) (hA : InvA s) : InvA (startTimer tid now nid s) := by
  obtain ⟨hB, hn, hc, hrun⟩ := hA
  refine ⟨invB_startTimer s tid now nid hnow hB, ?_, ?_, ?_⟩
  · show ((s.tasks.map (startTimerTask tid now nid)).map Task.id).Nodup
    rw [List.map_map]
    have heq : s.tasks.map (Task.id ∘ startTimerTask tid now nid) = s.tasks.map Task.id :=
      List.map_congr_left (fun t _ => startTimerTask_id tid now nid t)
    rw [heq]
    exact hn
  · show (s.tasks.map (startTimerTask tid now nid)).countP
        (fun t => decide (t.status = .IN_PROGRESS)) ≤ 1
    have h1 : (s.tasks.map (startTimerTask tid now nid)).countP
        (fun t => decide (t.status = .IN_PROGRESS)) ≤
        s.tasks.countP (fun t => decide (t.id = tid)) := by
      apply countP_map_le
      intro a ha hp
      simp only [decide_eq_true_eq] at hp ⊢
      exact ((startTimerTask_run tid now nid a (hB a ha) (hrun a ha) hnow).1 hp).1
    exact le_trans h1 (countP_le_one_of_nodup s.tasks hn tid)
  · intro t' ht' hst
    simp only [startTimer, List.mem_map] at ht'
    obtain ⟨t, ht, rfl⟩ := ht'
    exact ((startTimerTask_run tid now nid t (hB t ht) (hrun t ht) hnow).1 hst).2

theorem invA_stopTimer (s : StoreState) (tid : String) (now : Int)
    (hnow : 0 < now) (hA : InvA s) : InvA (stopTimer tid now s) := by
  obtain ⟨hB, hn, hc, hrun⟩ := hA
  refine ⟨invB_stopTimer s tid now hnow hB, ?_, ?_, ?_⟩
  · show ((s.tasks.map (stopTimerTask tid now)).map Task.id).Nodup
    rw [List.map_map]
    have heq : s.tasks.map (Task.id ∘ stopTimerTask tid now) = s.tasks.map Task.id :=
      List.map_congr_left (fun t _ => stopTimerTask_id tid now t)
    rw [heq]
    exact hn
  · show (s.tasks.map (stopTimerTask tid now)).countP
        (fun t => decide (t.status = .IN_PROGRESS)) ≤ 1
    have h1 : (s.tasks.map (stopTimerTask tid now)).countP
        (fun t => decide (t.status = .IN_PROGRESS)) ≤
        s.tasks.countP (fun t => decide (t.status = .IN_PROGRESS)) := by
      apply countP_map_le
      intro a ha hp
      simp only [decide_eq_true_eq] at hp ⊢
      exact ((stopTimerTask_run tid now a (hB a ha) hnow).1 hp).1
    exact le_trans h1 hc
  · intro t' ht' hst
    simp only [stopTimer, List.mem_map] at ht'
    obtain ⟨t, ht, rfl⟩ := ht'
    obtain ⟨hINP, heq⟩ := (stopTimerTask_run tid now t (hB t ht) hnow).1 hst
    rw [heq]
    exact hrun t ht hINP

theorem invA_timerStep {s s' : StoreState} (hstep : TimerStep s s') (hA : InvA s) :
    InvA s' := by
  cases hstep with
  | start tid now nid hnow => exact invA_startTimer s tid now nid hnow hA
  | stop tid now hnow => exact invA_stopTimer s tid now hnow hA

theorem invA_timerReach {s s' : StoreState} (h0 : InvA s) (hr : TimerReach s s') :
    InvA s' := by
  induction hr with
  | refl => exact h0
  | step hr hstep ih => exact invA_timerStep hstep ih

theorem invA_openTotal (s : StoreState) (h : InvA s) : openTotal s ≤ 1 := by
  obtain ⟨hB, hn, hc, hrun⟩ := h
  show (s.tasks.map openCount).sum ≤ 1
  have h1 : (s.tasks.map openCount).sum ≤
      s.tasks.countP (fun t => decide (t.status = .IN_PROGRESS)) := by
    apply sum_map_le_countP
    intro a ha
    by_cases hst : a.status = .IN_PROGRESS
    · rw [if_pos (by simpa using hst)]
      exact Nat.le_of_eq (hrun a ha hst)
    · rw [if_neg (by simpa using hst)]
      obtain ⟨_, hle, hone, _⟩ := hB a ha
      have hne : openCount a ≠ 1 := fun h1 => hst (hone h1)
      omega
  exact le_trans h1 hc

theorem invA_initialState : InvA initialState := by
  refine ⟨?_, ?_, ?_, ?_⟩
  · intro t ht
    cases ht
  · simp [initialState]
  · show ([] : List Task).countP _ ≤ 1
    simp
  · intro t ht
    cases ht

end TaskTracker

namespace TaskTracker

/-! ### Shared helper lemmas -/

theorem closeAt_length (logs : List TimeLog) (i : Nat) (now : Int) :
    (closeAt logs i now).length = logs.length := by
  induction logs generalizing i with
  | nil => rfl
  | cons l ls ih =>
    cases i with
    | zero => rfl
    | succ n =>
      show (l :: closeAt ls n now).length = (l :: ls).length
      simp [ih]

theorem startTimerTask_running_eq (tid : String) (now : Int) (nid : String)
    (t : Task) (i : Nat) (hst : t.status = .IN_PROGRESS)
    (hfind : findOpenIdx t.timeLogs = some i) :
    startTimerTask tid now nid t = pauseClose now i t := by
  unfold startTimerTask
  rw [if_pos hst, hfind]

theorem closeAt_endOk (logs : List TimeLog) (now : Int)
    (hok : ∀ l ∈ logs, logEndOk l = true)
    (hst : ∀ l ∈ logs, isOpenJS l = true → l.startTime ≤ now) :
    ∀ i, findOpenIdx logs = some i → ∀ x ∈ closeAt logs i now, logEndOk x = true := by
  induction logs with
  | nil => intro i h; cases h
  | cons l ls ih =>
    intro i h
    simp only [findOpenIdx] at h
    by_cases ho : isOpenJS l = true
    · rw [if_pos ho] at h
      have hi : (0 : Nat) = i := Option.some.inj h
      subst hi
      intro x hx
      simp only [closeAt] at hx
      rcases List.mem_cons.mp hx with rfl | hx
      · exact decide_eq_true (hst l (by simp) ho)
      · exact hok x (by simp [hx])
    · rw [if_neg ho] at h
      cases hf : findOpenIdx ls with
      | none => rw [hf] at h; cases h
      | some j =>
        rw [hf] at h
        have hi : j + 1 = i := Option.some.inj h
        subst hi
        intro x hx
        simp only [closeAt] at hx
        rcases List.mem_cons.mp hx with rfl | hx
        · exact hok x (by simp)
        · exact ih (fun y hy => hok y (by simp [hy]))
            (fun y hy hyo => hst y (by simp [hy]) hyo) j hf x hx

/-! ### Claim theorems -/

/-- Claim C1 (confirmed): for every state reachable from the initial empty
store by any sequence of `startTimer` and `stopTimer` calls with arbitrary
task ids (each call sampling a positive clock instant, as `Date.now()`
does), at most one task has status `IN_PROGRESS` and at most one Time Unit
across all tasks has no end instant.  The second conjunct proves the same
bound starting from any store satisfying the timer invariant `InvA`, which
the initial store does. -/
theorem c1_global_exclusivity :
    (∀ s, TimerReach initialState s → inpCount s ≤ 1 ∧ openTotal s ≤ 1) ∧
    (∀ s₀ s, InvA s₀ → TimerReach s₀ s → inpCount s ≤ 1 ∧ openTotal s ≤ 1) := by
  have key : ∀ s₀ s, InvA s₀ → TimerReach s₀ s → inpCount s ≤ 1 ∧ openTotal s ≤ 1 := by
    intro s₀ s h0 hrch
    have h := invA_timerReach h0 hrch
    exact ⟨h.2.2.1, invA_openTotal s h⟩
  exact ⟨fun s hs => key initialState s invA_initialState hs, key⟩

/-- Witness for C1: the bound evaluated after a concrete start and stop. -/
theorem c1_global_exclusivity_witness :
    inpCount (stopTimer "A" 9 (startTimer "A" 5 "l1" oneTaskState)) ≤ 1 ∧
    openTotal (stopTimer "A" 9 (startTimer "A" 5 "l1" oneTaskState)) ≤ 1 :=
  c1_global_exclusivity.2 oneTaskState _ (by decide)
    (TimerReach.step
      (TimerReach.step (TimerReach.refl oneTaskState)
        (TimerStep.start oneTaskState "A" 5 "l1" (by decide)))
      (TimerStep.stop (startTimer "A" 5 "l1" oneTaskState) "A" 9 (by decide)))

/-- Claim C2, amended: after any sequence of the five timer and time-log
operations from a well-formed store, every task with no open Time Unit has
`totalTimeSpent` equal to the sum of `end - start` over its units.  The
unamended claim also pins the totals of tasks that still own an open unit;
that part is refuted by `c2_counterexample`, because the manual operations
recompute with `(endTime || 0) - startTime`, letting an open unit contribute
`-startTime` instead of `0`. -/
theorem c2_total_consistency (s₀ s : StoreState) (h₀ : InvB s₀)
    (hreach : LogReach s₀ s) :
    ∀ t ∈ s.tasks, openCount t = 0 → t.totalTimeSpent = claimTotal t.timeLogs := by
  have h := invB_logReach h₀ hreach
  intro t ht h0
  exact (h t ht).2.2.2 h0

/-- Counterexample to C2 as stated: start a timer on a fresh task at instant
100, then manually add a closed unit `[200, 300]`.  The recompute uses
`(endTime || 0) - startTime`, so the open unit contributes `-100` and the
stored total is `0`, while the claimed sum (open units contributing `0`) is
`100`. -/
theorem c2_counterexample :
    InvB oneTaskState ∧
    ¬ (∀ t ∈ (manualAddTimeLog "A" 200 300 "l2"
          (startTimer "A" 100 "l1" oneTaskState)).tasks,
        t.totalTimeSpent = claimTotal t.timeLogs) := by decide

/-- Witness for C2: the amended equation evaluated on the concrete task
produced by a start followed by a stop. -/
theorem c2_total_consistency_witness :
    ({ mkTask "A" .TODO [] 0 none with
        status := TaskStatus.PAUSED
        actualStartDate := some 5
        timeLogs := [⟨"l1", 5, some 9⟩]
        totalTimeSpent := 4 } : Task).totalTimeSpent =
      claimTotal [⟨"l1", 5, some 9⟩] :=
  c2_total_consistency oneTaskState
    (stopTimer "A" 9 (startTimer "A" 5 "l1" oneTaskState)) (by decide)
    (LogReach.step
      (LogReach.step (LogReach.refl oneTaskState)
        (LogStep.start oneTaskState "A" 5 "l1" (by decide)))
      (LogStep.stop (startTimer "A" 5 "l1" oneTaskState) "A" 9 (by decide)))
    _ (by decide) (by decide)

/-- Claim C3, amended: calling `startTimer` on a task that is `IN_PROGRESS`
with an open unit hits the early-return pause branch: the open unit is
closed at `now`, the status becomes `PAUSED`, the total is recomputed, and
no new unit is appended — even when that task is the target.  The shipped
behaviour is a pause, not the close-and-reopen the claim describes;
`c3_counterexample` refutes the claim as stated. -/
theorem c3_restart_pauses (tid : String) (now : Int) (nid : String) (t : Task)
    (i : Nat) (hst : t.status = .IN_PROGRESS)
    (hfind : findOpenIdx t.timeLogs = some i) :
    startTimerTask tid now nid t = pauseClose now i t ∧
    (startTimerTask tid now nid t).status = .PAUSED ∧
    (startTimerTask tid now nid t).timeLogs.length = t.timeLogs.length ∧
    (startTimerTask tid now nid t).timeLogs = closeAt t.timeLogs i now := by
  have heq := startTimerTask_running_eq tid now nid t i hst hfind
  refine ⟨heq, ?_, ?_, ?_⟩
  · rw [heq]
    rfl
  · rw [heq]
    exact closeAt_length t.timeLogs i now
  · rw [heq]
    rfl

/-- Counterexample to C3 as stated: one task `IN_PROGRESS` with one open
unit started at 5; `startTimer` on its own id at instant 10 leaves it
`PAUSED` with a single closed unit `[5, 10]` and total 5 — not
`IN_PROGRESS` with a zero-duration closed unit plus a new open unit. -/
theorem c3_counterexample :
    (startTimer "A" 10 "l2" runningState).tasks =
      [{ mkTask "A" .IN_PROGRESS [⟨"l1", 5, none⟩] 0 none with
          status := TaskStatus.PAUSED
          timeLogs := [⟨"l1", 5, some 10⟩]
          totalTimeSpent := 5 }] ∧
    ¬ (∃ t ∈ (startTimer "A" 10 "l2" runningState).tasks,
        t.status = TaskStatus.IN_PROGRESS ∧ t.timeLogs.length = 2) := by decide

/-- Witness for C3: the amended statement evaluated on the concrete running
task. -/
theorem c3_restart_pauses_witness :
    startTimerTask "A" 10 "l2" (mkTask "A" .IN_PROGRESS [⟨"l1", 5, none⟩] 0 none) =
      pauseClose 10 0 (mkTask "A" .IN_PROGRESS [⟨"l1", 5, none⟩] 0 none) ∧
    (startTimerTask "A" 10 "l2"
        (mkTask "A" .IN_PROGRESS [⟨"l1", 5, none⟩] 0 none)).status = .PAUSED ∧
    (startTimerTask "A" 10 "l2"
        (mkTask "A" .IN_PROGRESS [⟨"l1", 5, none⟩] 0 none)).timeLogs.length =
      (mkTask "A" .IN_PROGRESS [⟨"l1", 5, none⟩] 0 none).timeLogs.length ∧
    (startTimerTask "A" 10 "l2"
        (mkTask "A" .IN_PROGRESS [⟨"l1", 5, none⟩] 0 none)).timeLogs =
      closeAt (mkTask "A" .IN_PROGRESS [⟨"l1", 5, none⟩] 0 none).timeLogs 0 10 :=
  c3_restart_pauses "A" 10 "l2" (mkTask "A" .IN_PROGRESS [⟨"l1", 5, none⟩] 0 none)
    0 (by decide) (by decide)

/-- Claim C5 (refuted, code bug): the ancestor-chain loop of `getTaskDepth`
has no revisit guard, so on the cyclic list `[A → B, B → A]` it never
terminates: for every fuel bound the loop is still running.  The claim and
the specification require termination in at most the number of tasks
steps. -/
theorem c5_cycle_nonterminating :
    ∀ fuel depth, getTaskDepthFuel cycTasks fuel cycTaskA depth = none ∧
      getTaskDepthFuel cycTasks fuel cycTaskB depth = none := by
  intro fuel
  induction fuel with
  | zero => intro depth; exact ⟨rfl, rfl⟩
  | succ f ih =>
    intro depth
    constructor
    · have step : getTaskDepthFuel cycTasks (f + 1) cycTaskA depth =
          getTaskDepthFuel cycTasks f cycTaskB (depth + 1) := rfl
      rw [step]
      exact (ih (depth + 1)).2
    · have step : getTaskDepthFuel cycTasks (f + 1) cycTaskB depth =
          getTaskDepthFuel cycTasks f cycTaskA (depth + 1) := rfl
      rw [step]
      exact (ih (depth + 1)).1

/-- Claim C7 (confirmed): `deleteTask(id)` keeps the category vocabularies,
keeps the remaining tasks unchanged and in order (sublist), and removes
exactly the task with the given id and the tasks whose parent id equals it;
grandchildren survive with a dangling parent id. -/
theorem c7_delete_cascade (s : StoreState) (id : String) :
    (deleteTask id s).mainCategories = s.mainCategories ∧
    (deleteTask id s).subCategories = s.subCategories ∧
    (deleteTask id s).tasks.Sublist s.tasks ∧
    ∀ t, t ∈ (deleteTask id s).tasks ↔
      (t ∈ s.tasks ∧ t.id ≠ id ∧ t.parentId ≠ some id) := by
  refine ⟨rfl, rfl, List.filter_sublist s.tasks, ?_⟩
  intro t
  show t ∈ s.tasks.filter _ ↔ _
  rw [List.mem_filter]
  constructor
  · intro ⟨h1, h2⟩
    have h3 := of_decide_eq_true h2
    exact ⟨h1, h3.1, h3.2⟩
  · intro ⟨h1, h2, h3⟩
    exact ⟨h1, decide_eq_true ⟨h2, h3⟩⟩

/-- Counterexample to C8 as stated: `manualAddTimeLog` stores the
caller-supplied interval verbatim, so adding a unit with start 10 and end 5
produces a unit whose end instant precedes its start instant. -/
theorem c8_counterexample :
    endsGeStart oneTaskState ∧
    ¬ endsGeStart (manualAddTimeLog "A" 10 5 "l1" oneTaskState) := by decide

/-- Claim C8, amended: every unit with an end instant keeps `end ≥ start`
under the time-log operations provided the caller supplies `start ≤ end` to
the manual edits and the timer instant is at or after the start of every
open unit; the store itself validates nothing, and `c8_counterexample`
refutes the unrestricted claim. -/
theorem c8_end_ge_start (s : StoreState) (tid lid nid : String)
    (start end_ now : Int) (hs : endsGeStart s) (hse : start ≤ end_)
    (hnow : ∀ t ∈ s.tasks, ∀ l ∈ t.timeLogs, isOpenJS l = true → l.startTime ≤ now) :
    endsGeStart (manualAddTimeLog tid start end_ nid s) ∧
    endsGeStart (updateTimeLog tid lid start end_ s) ∧
    endsGeStart (deleteTimeLog tid lid s) ∧
    endsGeStart (startTimer tid now nid s) ∧
    endsGeStart (stopTimer tid now s) := by
  refine ⟨?_, ?_, ?_, ?_, ?_⟩
  · intro t' ht'
    simp only [manualAddTimeLog, List.mem_map] at ht'
    obtain ⟨t, ht, rfl⟩ := ht'
    by_cases hid : t.id = tid
    · rw [if_pos hid]
      intro l hl
      rcases List.mem_append.mp hl with hl | hl
      · exact hs t ht l hl
      · rw [List.mem_singleton] at hl
        subst hl
        exact decide_eq_true hse
    · rw [if_neg hid]
      exact hs t ht
  · intro t' ht'
    simp only [updateTimeLog, List.mem_map] at ht'
    obtain ⟨t, ht, rfl⟩ := ht'
    by_cases hid : t.id = tid
    · rw [if_pos hid]
      intro l hl
      have hl2 : l ∈ t.timeLogs.map (updateLogEntry lid start end_) := hl
      rw [List.mem_map] at hl2
      obtain ⟨y, hy, rfl⟩ := hl2
      unfold updateLogEntry
      by_cases hyl : y.id = lid
      · rw [if_pos hyl]
        exact decide_eq_true hse
      · rw [if_neg hyl]
        exact hs t ht y hy
    · rw [if_neg hid]
      exact hs t ht
  · intro t' ht'
    simp only [deleteTimeLog, List.mem_map] at ht'
    obtain ⟨t, ht, rfl⟩ := ht'
    by_cases hid : t.id = tid
    · rw [if_pos hid]
      intro l hl
      exact hs t ht l (List.mem_of_mem_filter hl)
    · rw [if_neg hid]
      exact hs t ht
  · intro t' ht'
    simp only [startTimer, List.mem_map] at ht'
    obtain ⟨t, ht, rfl⟩ := ht'
    rcases startTimerTask_cases tid now nid t with ⟨i, hst, hf, heq⟩ | ⟨hnf, heq⟩
    · rw [heq]
      exact closeAt_endOk t.timeLogs now (hs t ht) (hnow t ht) i hf
    · rw [heq]
      rcases appendStart_cases tid now nid t with ⟨hid, heq2⟩ | ⟨hid, heq2⟩
      · rw [heq2]
        intro l hl
        rcases List.mem_append.mp hl with hl | hl
        · exact hs t ht l hl
        · rw [List.mem_singleton] at hl
          subst hl
          rfl
      · rw [heq2]
        exact hs t ht
  · intro t' ht'
    simp only [stopTimer, List.mem_map] at ht'
    obtain ⟨t, ht, rfl⟩ := ht'
    rcases stopTimerTask_cases tid now t with heq | ⟨i, hid, hf, heq⟩
    · rw [heq]
      exact hs t ht
    · rw [heq]
      exact closeAt_endOk t.timeLogs now (hs t ht) (hnow t ht) i hf

/-- Witness for C8: the five preservation facts evaluated on the concrete
running store. -/
theorem c8_end_ge_start_witness :
    endsGeStart (manualAddTimeLog "A" 3 7 "l2" runningState) ∧
    endsGeStart (updateTimeLog "A" "l1" 3 7 runningState) ∧
    endsGeStart (deleteTimeLog "A" "l1" runningState) ∧
    endsGeStart (startTimer "A" 9 "l2" runningState) ∧
    endsGeStart (stopTimer "A" 9 runningState) :=
  c8_end_ge_start runningState "A" "l1" "l2" 3 7 9 (by decide) (by decide) (by decide)

/-- Claim C9 (confirmed): exporting the full data object
`{ tasks, mainCategories, subCategories }` and importing it reproduces the
original tasks and category vocabularies field for field, for every store
content and regardless of the store being replaced. -/
theorem c9_round_trip (s s' : StoreState) :
    importFullData (exportFull s) s' =
      { tasks := s.tasks, mainCategories := s.mainCategories,
        subCategories := s.subCategories } ∧
    (importFullData (exportFull s) s').tasks = s.tasks ∧
    (importFullData (exportFull s) s').mainCategories = s.mainCategories ∧
    (importFullData (exportFull s) s').subCategories = s.subCategories :=
  ⟨rfl, rfl, rfl, rfl⟩

/-- Claim C10 (confirmed): `startTimer` with a task id matching no task still
pauses and closes the running task (when it has an open unit, recomputing
its total), adds no task and no Time Unit anywhere, keeps the category
vocabularies, and leaves the store entirely unchanged when nothing is
`IN_PROGRESS`. -/
theorem c10_start_missing_id (s : StoreState) (tid : String) (now : Int)
    (nid : String) (hmiss : ∀ t ∈ s.tasks, t.id ≠ tid) :
    (startTimer tid now nid s).mainCategories = s.mainCategories ∧
    (startTimer tid now nid s).subCategories = s.subCategories ∧
    (startTimer tid now nid s).tasks.length = s.tasks.length ∧
    (∀ t ∈ s.tasks,
      (startTimerTask tid now nid t).timeLogs.length = t.timeLogs.length) ∧
    ((∀ t ∈ s.tasks, t.status ≠ .IN_PROGRESS) → startTimer tid now nid s = s) ∧
    (∀ t ∈ s.tasks, ∀ i, t.status = .IN_PROGRESS → findOpenIdx t.timeLogs = some i →
      startTimerTask tid now nid t = pauseClose now i t ∧
      (startTimerTask tid now nid t).status = .PAUSED) := by
  refine ⟨rfl, rfl, by simp [startTimer], ?_, ?_, ?_⟩
  · intro t ht
    rcases startTimerTask_cases tid now nid t with ⟨i, hst, hf, heq⟩ | ⟨hnf, heq⟩
    · rw [heq]
      exact closeAt_length t.timeLogs i now
    · rw [heq]
      rcases appendStart_cases tid now nid t with ⟨hid, _⟩ | ⟨_, heq2⟩
      · exact absurd hid (hmiss t ht)
      · rw [heq2]
  · intro hni
    have hmap : s.tasks.map (startTimerTask tid now nid) = s.tasks := by
      have hpt : ∀ t ∈ s.tasks, startTimerTask tid now nid t = t := by
        intro t ht
        rcases startTimerTask_cases tid now nid t with ⟨i, hst, hf, heq⟩ | ⟨hnf, heq⟩
        · exact absurd hst (hni t ht)
        · rw [heq]
          rcases appendStart_cases tid now nid t with ⟨hid, _⟩ | ⟨_, heq2⟩
          · exact absurd hid (hmiss t ht)
          · exact heq2
      calc s.tasks.map (startTimerTask tid now nid) = s.tasks.map id :=
            List.map_congr_left hpt
        _ = s.tasks := List.map_id s.tasks
    show { s with tasks := s.tasks.map (startTimerTask tid now nid) } = s
    rw [hmap]
  · intro t ht i hst hf
    have heq := startTimerTask_running_eq tid now nid t i hst hf
    exact ⟨heq, by rw [heq]; rfl⟩

/-- Witness for C10: the length and category facts evaluated on the concrete
running store with an unknown target id. -/
theorem c10_start_missing_id_witness :
    (startTimer "Z" 9 "l9" runningState).tasks.length =
      runningState.tasks.length ∧
    (startTimer "Z" 9 "l9" runningState).mainCategories =
      runningState.mainCategories :=
  ⟨(c10_start_missing_id runningState "Z" 9 "l9" (by decide)).2.2.1,
   (c10_start_missing_id runningState "Z" 9 "l9" (by decide)).1⟩

end TaskTracker

namespace TaskTracker

/-- Claim C4, amended: the task-level active-in-range test includes a unit
exactly when `effectiveStart < effectiveEnd` (strict), and for every unit
whose start is at or before its effective end instant (`end ?? now`), the
per-category aggregation contributes exactly
`max 0 (effectiveEnd - effectiveStart)` — in particular a unit
`[10:00, 11:00]` against the window `[10:30, 10:45]` contributes 15 minutes
(900000 ms) and a unit ending exactly at the window start contributes 0 and
is excluded.  The per-category inclusion test of the source is
`effectiveStart < windowEnd && effectiveEnd > windowStart`, not the strict
overlap test the claim states, and it adds the unclamped difference:
`c4_counterexample` shows an inverted unit that is included with a negative
contribution. -/
theorem c4_interval_aggregation :
    (∀ (l : TimeLog) (now ws we : Int), l.startTime ≤ jsOrE l.endTime now →
      statsContrib l now ws we = max 0 (effEnd l now we - effStart l ws)) ∧
    (∀ (l : TimeLog) (now ws we : Int),
      activeLog l now ws we = true ↔ effStart l ws < effEnd l now we) ∧
    (∀ (t : Task) (now ws we : Int),
      taskActiveInRange t now ws we = true ↔
        ∃ l ∈ t.timeLogs, effStart l ws < effEnd l now we) ∧
    statsContrib ⟨"u", 36000000, some 39600000⟩ 0 37800000 38700000 = 900000 ∧
    activeLog ⟨"u", 36000000, some 39600000⟩ 0 37800000 38700000 = true ∧
    statsContrib ⟨"v", 36000000, some 37800000⟩ 0 37800000 38700000 = 0 ∧
    activeLog ⟨"v", 36000000, some 37800000⟩ 0 37800000 38700000 = false := by
  refine ⟨?_, ?_, ?_, by decide, by decide, by decide, by decide⟩
  · intro l now ws we h
    unfold statsContrib statsIncluded effStart effEnd
    by_cases hc : max l.startTime ws < we ∧ ws < min (jsOrE l.endTime now) we
    · rw [if_pos (decide_eq_true hc)]
      omega
    · rw [if_neg (by simpa using hc)]
      omega
  · intro l now ws we
    unfold activeLog
    simp [decide_eq_true_eq]
  · intro t now ws we
    unfold taskActiveInRange activeLog
    simp [List.any_eq_true, decide_eq_true_eq]

/-- Counterexample to C4 as stated: the unit with start 100 and end 50
against the window `[0, 200]` has `effectiveStart = 100 ≥ 50 = effectiveEnd`,
so the claim excludes it with contribution `max 0 (...) = 0`; the
per-category aggregation of the source nevertheless includes it and adds
`-50`. -/
theorem c4_counterexample :
    statsIncluded ⟨"w", 100, some 50⟩ 1000 0 200 = true ∧
    ¬ (effStart ⟨"w", 100, some 50⟩ 0 < effEnd ⟨"w", 100, some 50⟩ 1000 200) ∧
    statsContrib ⟨"w", 100, some 50⟩ 1000 0 200 = -50 ∧
    max 0 (effEnd ⟨"w", 100, some 50⟩ 1000 200 - effStart ⟨"w", 100, some 50⟩ 0) = 0 := by
  decide

/-- Witness for C4: the clamped-contribution equation and the strict overlap
test evaluated on a concrete closed unit. -/
theorem c4_interval_aggregation_witness :
    statsContrib ⟨"x", 100, some 200⟩ 1000 0 300 =
      max 0 (effEnd ⟨"x", 100, some 200⟩ 1000 300 - effStart ⟨"x", 100, some 200⟩ 0) ∧
    (activeLog ⟨"x", 100, some 200⟩ 1000 0 300 = true ↔
      effStart ⟨"x", 100, some 200⟩ 0 < effEnd ⟨"x", 100, some 200⟩ 1000 300) :=
  ⟨c4_interval_aggregation.1 ⟨"x", 100, some 200⟩ 1000 0 300 (by decide),
   c4_interval_aggregation.2.1 ⟨"x", 100, some 200⟩ 1000 0 300⟩

end TaskTracker

namespace TaskTracker

/-! ### Hierarchy indexer lemmas -/

theorem buildAcc_spec (filtered : List Task) :
    ∀ (fuel depth : Nat) (l : List Task) (i : Nat) (pre : String)
      (acc : List IndexedTask), 5 - depth ≤ fuel →
      buildAcc filtered depth l i pre acc =
        acc ++ specChildren filtered depth l i pre := by
  intro fuel
  induction fuel with
  | zero =>
    intro depth l
    induction l with
    | nil =>
      intro i pre acc h
      simp [buildAcc, specChildren]
    | cons c cs ihl =>
      intro i pre acc h
      have hd : ¬ depth < 5 := by omega
      simp only [buildAcc, specChildren, dif_neg hd]
      rw [ihl (i + 1) pre _ h]
      simp [List.append_assoc]
  | succ f ihf =>
    intro depth l
    induction l with
    | nil =>
      intro i pre acc h
      simp [buildAcc, specChildren]
    | cons c cs ihl =>
      intro i pre acc h
      by_cases hd : depth < 5
      · simp only [buildAcc, specChildren, dif_pos hd]
        rw [ihf (depth + 1) (childrenOf filtered c.id) 0 (mkIdx pre i) _ (by omega)]
        rw [ihl (i + 1) pre _ h]
        simp [List.append_assoc]
      · simp only [buildAcc, specChildren, dif_neg hd]
        rw [ihl (i + 1) pre _ h]
        simp [List.append_assoc]

theorem rootsAcc_spec (filtered : List Task) :
    ∀ (l : List Task) (i : Nat) (acc : List IndexedTask),
      rootsAcc filtered l i acc = acc ++ specIndexRoots filtered l i := by
  intro l
  induction l with
  | nil =>
    intro i acc
    simp [rootsAcc, specIndexRoots]
  | cons r rs ih =>
    intro i acc
    simp only [rootsAcc, specIndexRoots]
    rw [buildAcc_spec filtered 5 2 (childrenOf filtered r.id) 0 (toString (i + 1)) _
        (by omega)]
    rw [ih (i + 1)]
    simp [List.append_assoc]

theorem specChildren_depth (filtered : List Task) :
    ∀ (fuel depth : Nat) (l : List Task) (i : Nat) (pre : String),
      5 - depth ≤ fuel → depth ≤ 5 →
      ∀ it ∈ specChildren filtered depth l i pre,
        depth ≤ it.depth ∧ it.depth ≤ 5 := by
  intro fuel
  induction fuel with
  | zero =>
    intro depth l
    induction l with
    | nil =>
      intro i pre h h5 it hit
      simp [specChildren] at hit
    | cons c cs ihl =>
      intro i pre h h5 it hit
      have hd : ¬ depth < 5 := by omega
      simp only [specChildren, dif_neg hd] at hit
      rcases List.mem_append.mp hit with hit | hit
      · rcases List.mem_cons.mp hit with rfl | hit
        · exact ⟨Nat.le_refl _, h5⟩
        · simp at hit
      · exact ihl (i + 1) pre h h5 it hit
  | succ f ihf =>
    intro depth l
    induction l with
    | nil =>
      intro i pre h h5 it hit
      simp [specChildren] at hit
    | cons c cs ihl =>
      intro i pre h h5 it hit
      by_cases hd : depth < 5
      · simp only [specChildren, dif_pos hd] at hit
        rcases List.mem_append.mp hit with hit | hit
        · rcases List.mem_cons.mp hit with rfl | hit
          · exact ⟨Nat.le_refl _, h5⟩
          · have hrec := ihf (depth + 1) (childrenOf filtered c.id) 0 (mkIdx pre i)
              (by omega) (by omega) it hit
            exact ⟨by omega, hrec.2⟩
        · exact ihl (i + 1) pre h h5 it hit
      · simp only [specChildren, dif_neg hd] at hit
        rcases List.mem_append.mp hit with hit | hit
        · rcases List.mem_cons.mp hit with rfl | hit
          · exact ⟨Nat.le_refl _, h5⟩
          · simp at hit
        · exact ihl (i + 1) pre h h5 it hit

theorem specIndexRoots_depth (filtered : List Task) :
    ∀ (l : List Task) (i : Nat), ∀ it ∈ specIndexRoots filtered l i,
      1 ≤ it.depth ∧ it.depth ≤ 5 := by
  intro l
  induction l with
  | nil =>
    intro i it hit
    simp [specIndexRoots] at hit
  | cons r rs ih =>
    intro i it hit
    simp only [specIndexRoots] at hit
    rcases List.mem_append.mp hit with hit | hit
    · rcases List.mem_cons.mp hit with rfl | hit
      · refine ⟨Nat.le_refl _, ?_⟩
        show (1 : Nat) ≤ 5
        omega
      · have hrec := specChildren_depth filtered 5 2 (childrenOf filtered r.id) 0
          (toString (i + 1)) (by omega) (by omega) it hit
        exact ⟨by omega, hrec.2⟩
    · exact ih (i + 1) it hit

/-- Claim C6 (confirmed): the hierarchy indexer is a pure function of the
filtered task list that equals its compositional restatement (`specIndex`):
the roots are exactly the filtered tasks whose parent id is absent (or the
JS-falsy empty string) or whose parent is not found in the filtered list,
numbered `1, 2, 3, ...` in relative order; the children of each task are
numbered `parentIndex.1, parentIndex.2, ...` in relative order; recursion
descends only while the depth is below 5, and every emitted entry has depth
between 1 and 5 (descendants below depth 5 are never emitted). -/
theorem c6_hierarchy_indexer (filtered : List Task) :
    processedTasks filtered = specIndex filtered ∧
    (processedTasks filtered).all
      (fun it => decide (1 ≤ it.depth ∧ it.depth ≤ 5)) = true := by
  have h1 : processedTasks filtered = specIndex filtered := by
    unfold processedTasks specIndex
    rw [rootsAcc_spec filtered (rootsOf filtered) 0 []]
    rfl
  refine ⟨h1, ?_⟩
  rw [List.all_eq_true]
  intro it hit
  rw [h1] at hit
  exact decide_eq_true (specIndexRoots_depth filtered (rootsOf filtered) 0 it hit)

end TaskTracker
